import Mathlib

/-!
# cpphash.h: a shallow embedding and its verified properties

The header `gcc/cpphash.h` of the C preprocessor library declares the internal
data structures of the reader and a family of small macros over them.  This
file embeds the macros as Lean functions (machine words are naturals reduced
modulo `2 ^ w`, C truth values are naturals tested against zero, pointers are
addresses into explicit stores) and proves properties of them.

The header only declares the functions of cppfiles.c, cpplib.c and cppmacro.c.
Where a property is about one of those, the function is modelled from the
design description of the library, and its definition says so.
-/

namespace CppHash

/-! ## Unsigned machine words -/

/-- Unsigned addition on `w`-bit words. -/
def word_add (w a b : Nat) : Nat := (a + b) % 2 ^ w

/-- Unsigned subtraction on `w`-bit words (wraps below zero). -/
def word_sub (w a b : Nat) : Nat := (a % 2 ^ w + 2 ^ w - b % 2 ^ w) % 2 ^ w

/-- Bitwise complement `~a` on `w`-bit words. -/
def word_not (w a : Nat) : Nat := 2 ^ w - 1 - a % 2 ^ w

/-! ## Options read through `CPP_OPTION (pfile, OPTION)` -/

/-- The members of `struct cpp_options` that the macros of this header read.
Each is an `unsigned char` holding a C truth value (nonzero means enabled). -/
structure cpp_options where
  extended_numbers : Nat
  dollars_in_ident : Nat
deriving DecidableEq, Repr

/-- `VALID_SIGN (c, prevc)`: test if a sign is valid within a preprocessing
number.  The macro reads `CPP_OPTION (pfile, extended_numbers)` from the
reader in scope at the point of use. -/
def VALID_SIGN (opts : cpp_options) (c prevc : Nat) : Bool :=
  (c == '+'.toNat || c == '-'.toNat) &&
  (prevc == 'e'.toNat || prevc == 'E'.toNat
    || ((prevc == 'p'.toNat || prevc == 'P'.toNat)
        && opts.extended_numbers != 0))

/-! ## Character classes -/

/-- `_dollar_ok (x)`. -/
def _dollar_ok (opts : cpp_options) (x : Nat) : Bool :=
  x == '$'.toNat && opts.dollars_in_ident != 0

/-- `is_idchar (x)`; `ISIDNUM` is the primitive of safe-ctype.h. -/
def is_idchar (ISIDNUM : Nat → Bool) (opts : cpp_options) (x : Nat) : Bool :=
  ISIDNUM x || _dollar_ok opts x

/-- `is_numchar (x)`. -/
def is_numchar (ISIDNUM : Nat → Bool) (x : Nat) : Bool :=
  ISIDNUM x

/-- `is_idstart (x)`; `ISIDST` is the primitive of safe-ctype.h. -/
def is_idstart (ISIDST : Nat → Bool) (opts : cpp_options) (x : Nat) : Bool :=
  ISIDST x || _dollar_ok opts x

/-! ## Host alignment handling -/

/-- `CPP_ALIGN2 (size, align)` is `((size) + ((align) - 1)) & ~((align) - 1)`,
evaluated on unsigned `w`-bit words. -/
def CPP_ALIGN2 (w size align : Nat) : Nat :=
  word_add w size (word_sub w align 1) &&& word_not w (word_sub w align 1)

/-- `CPP_ALIGN (size)` is `CPP_ALIGN2 (size, DEFAULT_ALIGNMENT)`, where
`DEFAULT_ALIGNMENT` is `offsetof (struct dummy, u)`, a constant of the host. -/
def CPP_ALIGN (w DEFAULT_ALIGNMENT size : Nat) : Nat :=
  CPP_ALIGN2 w size DEFAULT_ALIGNMENT

/-! ## Macro definitions and hash nodes -/

/-- `struct cpp_macro`.  Pointers are addresses; the union `exp` of the two
replacement pointers is one pointer word; the one-bit fields hold 0 or 1. -/
structure cpp_macro where
  params : Nat
  exp : Nat
  line : Nat
  count : Nat
  paramc : Nat
  fun_like : Nat
  variadic : Nat
  syshdr : Nat
  used : Nat
deriving DecidableEq, Repr

/-- The members of `cpp_hashnode` (declared in cpplib.h) that this header
reads: the node type, the flag byte, and the `macro` member of the `value`
union, a pointer to the node's macro definition. -/
structure cpp_hashnode where
  type : Nat
  flags : Nat
  value : Nat
deriving DecidableEq, Repr

/-- The part of memory the macro-marking code touches: hash nodes and macro
definitions, each addressed by pointer. -/
structure Memory where
  nodes : Nat → cpp_hashnode
  macros : Nat → cpp_macro

/-- `_cpp_mark_macro_used (NODE)`:
`if (NODE->type == NT_MACRO && !(NODE->flags & NODE_BUILTIN))
   NODE->value.macro->used = 1;`.
`NT_MACRO` and `NODE_BUILTIN` are constants of cpplib.h. -/
def _cpp_mark_macro_used (NT_MACRO NODE_BUILTIN : Nat) (mem : Memory) (NODE : Nat) :
    Memory :=
  if (mem.nodes NODE).type == NT_MACRO
      && ((mem.nodes NODE).flags &&& NODE_BUILTIN) == 0 then
    { mem with
      macros := Function.update mem.macros (mem.nodes NODE).value
        { mem.macros (mem.nodes NODE).value with used := 1 } }
  else mem

/-- Marking the same node `n` times in a row. -/
def mark_times (NT_MACRO NODE_BUILTIN : Nat) (NODE : Nat) : Nat → Memory → Memory
  | 0, mem => mem
  | n + 1, mem =>
    mark_times NT_MACRO NODE_BUILTIN NODE n
      (_cpp_mark_macro_used NT_MACRO NODE_BUILTIN mem NODE)

/-! ## Generic memory buffers -/

/-- `struct _cpp_buff`: a generic memory buffer; all four members are
addresses. -/
structure _cpp_buff where
  next : Nat
  base : Nat
  cur : Nat
  limit : Nat
deriving DecidableEq, Repr

/-- `BUFF_ROOM (BUFF)` is `(size_t) ((BUFF)->limit - (BUFF)->cur)`: the signed
pointer difference converted to an unsigned `w`-bit word. -/
def BUFF_ROOM (w : Nat) (BUFF : _cpp_buff) : Nat :=
  (((BUFF.limit : Int) - (BUFF.cur : Int)) % 2 ^ w).toNat

/-- `BUFF_FRONT (BUFF)` is `(BUFF)->cur`. -/
def BUFF_FRONT (BUFF : _cpp_buff) : Nat := BUFF.cur

/-- `BUFF_LIMIT (BUFF)` is `(BUFF)->limit`. -/
def BUFF_LIMIT (BUFF : _cpp_buff) : Nat := BUFF.limit

/-- The assignment `BUFF_FRONT (BUFF) += n` that users of the buffer perform
through the lvalue macro to advance the cursor by `n` bytes. -/
def BUFF_FRONT_advance (BUFF : _cpp_buff) (n : Nat) : _cpp_buff :=
  { BUFF with cur := BUFF.cur + n }

/-! ## The source buffer stack -/

/-- `CPP_STACK_MAX`: maximum nesting of cpp_buffers. -/
def CPP_STACK_MAX : Nat := 200

/-- Modelled from the spec: one logical line of a pushed input region, as far
as the buffer stack is concerned: an inclusion directive naming a file, or
any other line.  The lexer and the directive parser are not part of the
sources. -/
inductive source_line where
  | include_file (fname : Nat)
  | text (c : Nat)
deriving DecidableEq, Repr

/-- The members of `struct cpp_buffer` the stack discipline depends on: `cur`,
here the unread remainder of the region, and `file`, non-NULL if this is a
file buffer.  The `prev` link is the tail of the reader's buffer list. -/
structure cpp_buffer where
  cur : List source_line
  file : Option Nat
deriving DecidableEq, Repr

/-- The members of `struct cpp_reader` the stack discipline depends on:
`buffer`, the buffer stack with its top first, and `errors`, the error counter
for the exit code; `fatal` records that a fatal diagnostic abandoned the
run. -/
structure cpp_reader where
  buffer : List cpp_buffer
  errors : Nat
  fatal : Bool
deriving DecidableEq, Repr

/-- A reader before any buffer is pushed. -/
def cpp_create_reader : cpp_reader := ⟨[], 0, false⟩

/-- Modelled from the spec: `push(content, is_file)` suspends the current
buffer and makes the new one current; the stack has a bounded maximum depth,
and a push beyond it fails fast with a fatal diagnostic.  The body of
`_cpp_stack_file` (cppfiles.c) is not part of the sources. -/
def _cpp_stack_file (pfile : cpp_reader) (content : List source_line)
    (file : Option Nat) : Bool × cpp_reader :=
  if CPP_STACK_MAX ≤ pfile.buffer.length then
    (false, { pfile with errors := pfile.errors + 1, fatal := true })
  else
    (true, { pfile with buffer := ⟨content, file⟩ :: pfile.buffer })

/-- Modelled from the spec: an inclusion asks the externally resolved
file-open service for the file and pushes it; at the depth limit it fails
with a fatal diagnostic; a missing file is reported and the inclusion is a
no-op.  The body of `_cpp_stack_include` (cppfiles.c) is not part of the
sources. -/
def _cpp_stack_include (open_file : Nat → Option (List source_line))
    (pfile : cpp_reader) (fname : Nat) : Bool × cpp_reader :=
  if CPP_STACK_MAX ≤ pfile.buffer.length then
    (false, { pfile with errors := pfile.errors + 1, fatal := true })
  else
    match open_file fname with
    | none => (false, { pfile with errors := pfile.errors + 1 })
    | some content => _cpp_stack_file pfile content (some fname)

/-- Modelled from the spec: `pop()` restores the previous buffer.  The body of
`_cpp_pop_buffer` (cpplib.c) is not part of the sources. -/
def _cpp_pop_buffer (pfile : cpp_reader) : cpp_reader :=
  { pfile with buffer := pfile.buffer.tail }

/-- Modelled from the spec: one step of reading: a run abandoned by a fatal
error, or with no buffer left, stays as it is; an exhausted buffer is popped;
a line is consumed, and an inclusion directive then stacks the named file. -/
def read_step (open_file : Nat → Option (List source_line)) (pfile : cpp_reader) :
    cpp_reader :=
  if pfile.fatal then pfile
  else
    match pfile.buffer with
    | [] => pfile
    | b :: rest =>
      match b.cur with
      | [] => _cpp_pop_buffer pfile
      | source_line.text _ :: more =>
        { pfile with buffer := { b with cur := more } :: rest }
      | source_line.include_file fname :: more =>
        (_cpp_stack_include open_file
          { pfile with buffer := { b with cur := more } :: rest } fname).2

/-- Modelled from the spec: `n` steps of reading. -/
def read_run (open_file : Nat → Option (List source_line)) : Nat → cpp_reader → cpp_reader
  | 0, pfile => pfile
  | n + 1, pfile => read_run open_file n (read_step open_file pfile)

/-- The reader states that can arise from a fresh reader by pushing regions,
including files, popping and reading. -/
inductive reachable (open_file : Nat → Option (List source_line)) : cpp_reader → Prop where
  | create : reachable open_file cpp_create_reader
  | stack_file (pfile : cpp_reader) (content : List source_line) (file : Option Nat) :
      reachable open_file pfile → reachable open_file (_cpp_stack_file pfile content file).2
  | stack_include (pfile : cpp_reader) (fname : Nat) :
      reachable open_file pfile →
      reachable open_file (_cpp_stack_include open_file pfile fname).2
  | pop_buffer (pfile : cpp_reader) :
      reachable open_file pfile → reachable open_file (_cpp_pop_buffer pfile)
  | step (pfile : cpp_reader) :
      reachable open_file pfile → reachable open_file (read_step open_file pfile)

/-! ## Tokens -/

/-- Modelled from the spec: a preprocessing token, as far as macro expansion
is concerned: an identifier, given by its hash node, or any other token, given
by its spelling.  The declaration of `cpp_token` (cpplib.h) is not part of the
sources. -/
inductive cpp_token where
  | CPP_NAME (node : Nat)
  | CPP_OTHER (spelling : Nat)
deriving DecidableEq, Repr

/-! ## Argument counts of macro calls -/

/-- Modelled from the spec: the argument-count check of a macro call.  As many
arguments as parameters is accepted; fewer fails unless the macro is variadic
and the one missing argument is the trailing group, which may be empty; more
fails unless the macro is variadic, whose trailing parameter takes the excess.
The body of `_cpp_arguments_ok` (cppmacro.c) is not part of the sources. -/
def _cpp_arguments_ok (m : cpp_macro) (argc : Nat) : Bool :=
  if argc = m.paramc then true
  else if argc < m.paramc then m.variadic != 0 && argc + 1 == m.paramc
  else m.variadic != 0

/-- Modelled from the spec: the arguments of an accepted call as bound to the
parameters: a missing trailing group is bound empty, and excess arguments fold
into the single trailing variadic parameter, in order and separated by
`comma`. -/
def fold_arguments (comma : cpp_token) (m : cpp_macro) (args : List (List cpp_token)) :
    Option (List (List cpp_token)) :=
  if _cpp_arguments_ok m args.length then
    if args.length = m.paramc then some args
    else if args.length < m.paramc then some (args ++ [[]])
    else some (args.take (m.paramc - 1)
      ++ [List.intercalate [comma] (args.drop (m.paramc - 1))])
  else none

/-! ## The expansion context engine -/

/-- The members of `struct cpp_context` that token production depends on: the
unread tokens between `FIRST (c)` and `LAST (c)`, and the member `macro`: for
a macro context the macro node, otherwise NULL.  The `prev` link is the tail
of the context list. -/
structure cpp_context where
  tokens : List cpp_token
  macro_node : Option Nat
deriving DecidableEq, Repr

/-- The part of the reader that token production changes: the tokens the
lexer will still deliver for the base context, and the stack of contexts
above the base context, innermost first. -/
structure expander where
  input : List cpp_token
  contexts : List cpp_context
deriving DecidableEq, Repr

/-- Modelled from the spec: the macro table restricted to object-like macros,
a list of entries from a name to its replacement sequence; the first entry for
a name is its definition. -/
def macro_lookup : List (Nat × List cpp_token) → Nat → Option (List cpp_token)
  | [], _ => none
  | (k, r) :: rest, n => if k = n then some r else macro_lookup rest n

/-- The macros that are active along a context chain: the `macro` member of
every macro context of the chain. -/
def active_macros (contexts : List cpp_context) : List Nat :=
  contexts.filterMap (fun c => c.macro_node)

/-- Modelled from the spec: a token is expanded when it names a macro,
expansion is not currently disabled (`state.prevent_expansion`), and that
macro is not already active along the current context chain; the result is
the macro and its replacement. -/
def expandable (table : List (Nat × List cpp_token)) (prevent_expansion : Bool)
    (active : List Nat) : cpp_token → Option (Nat × List cpp_token)
  | .CPP_NAME n =>
    match macro_lookup table n with
    | some r => if prevent_expansion || active.contains n then none else some (n, r)
    | none => none
  | .CPP_OTHER _ => none

/-- What pulling a raw token gives: the innermost context was exhausted and
has been popped, the input has ended, or a token and the state after it. -/
inductive pull_result where
  | exhausted (s : expander)
  | eof
  | token (t : cpp_token) (s : expander)

/-- Modelled from the spec: popping the innermost context.  The body of
`_cpp_pop_context` (cppmacro.c) is not part of the sources. -/
def _cpp_pop_context (s : expander) : expander :=
  { s with contexts := s.contexts.tail }

/-- Modelled from the spec: if the innermost context is exhausted, pop it;
otherwise pull the next raw token from the innermost context, or from the
lexer if the stack holds only the base context. -/
def pull (s : expander) : pull_result :=
  match s.contexts with
  | c :: rest =>
    match c.tokens with
    | [] => .exhausted (_cpp_pop_context s)
    | t :: ts => .token t { s with contexts := { c with tokens := ts } :: rest }
  | [] =>
    match s.input with
    | [] => .eof
    | t :: ts => .token t { s with input := ts }

/-- Modelled from the spec: pushing a context over the replacement sequence of
an object-like macro, with the macro recorded in the context. -/
def push_macro_context (s : expander) (n : Nat) (r : List cpp_token) : expander :=
  { s with contexts := { tokens := r, macro_node := some n } :: s.contexts }

/-- Modelled from the spec: token production as a pull-based state machine.
An exhausted innermost context is popped and the pull retried; a pulled token
that is to be expanded has a context pushed over its replacement and the pull
retried; any other token is returned unchanged.  The result `none` as a token
is the distinguished end-of-stream token; running out of `fuel` gives no
result at all.  The body of `cpp_get_token` (cppmacro.c) is not part of the
sources. -/
def cpp_get_token (table : List (Nat × List cpp_token)) (prevent_expansion : Bool) :
    Nat → expander → Option (Option cpp_token × expander)
  | 0, _ => none
  | fuel + 1, s =>
    match pull s with
    | .exhausted s1 => cpp_get_token table prevent_expansion fuel s1
    | .eof => some (none, s)
    | .token t s1 =>
      match expandable table prevent_expansion (active_macros s1.contexts) t with
      | some (n, r) => cpp_get_token table prevent_expansion fuel (push_macro_context s1 n r)
      | none => some (some t, s1)

/-- Modelled from the spec: the output of a run, the tokens produced up to the
end-of-stream token. -/
def expand_all (table : List (Nat × List cpp_token)) (prevent_expansion : Bool) :
    Nat → expander → Option (List cpp_token)
  | 0, _ => none
  | fuel + 1, s =>
    match cpp_get_token table prevent_expansion fuel s with
    | none => none
    | some (none, _) => some []
    | some (some t, s1) =>
      (expand_all table prevent_expansion fuel s1).map (fun out => t :: out)

/-! ### Reference semantics of rescanning -/

/-- The rescan of a token sequence under a list of active macros, to nesting
depth `d`: every token that is to be expanded is replaced by the rescan of its
replacement with the macro added to the active ones. -/
def rescan (table : List (Nat × List cpp_token)) (prevent_expansion : Bool) :
    Nat → List Nat → List cpp_token → List cpp_token
  | 0, _, toks => toks
  | d + 1, active, toks =>
    toks.flatMap (fun t =>
      match expandable table prevent_expansion active t with
      | some (n, r) => rescan table prevent_expansion d (n :: active) r
      | none => [t])

/-- The number of engine steps that rescanning a token sequence takes. -/
def weight (table : List (Nat × List cpp_token)) (prevent_expansion : Bool) :
    Nat → List Nat → List cpp_token → Nat
  | 0, _, toks => toks.length
  | d + 1, active, toks =>
    (toks.map (fun t =>
      match expandable table prevent_expansion active t with
      | some (n, r) => 2 + weight table prevent_expansion d (n :: active) r
      | none => 1)).sum

/-- The tokens that a context stack will still produce. -/
def denote_contexts (table : List (Nat × List cpp_token)) (prevent_expansion : Bool) :
    List cpp_context → List cpp_token
  | [] => []
  | c :: cs =>
    rescan table prevent_expansion (table.length - (active_macros (c :: cs)).length)
        (active_macros (c :: cs)) c.tokens
      ++ denote_contexts table prevent_expansion cs

/-- The tokens that a state will still produce. -/
def denote (table : List (Nat × List cpp_token)) (prevent_expansion : Bool)
    (s : expander) : List cpp_token :=
  denote_contexts table prevent_expansion s.contexts
    ++ rescan table prevent_expansion table.length [] s.input

/-- The number of engine steps a context stack will still take. -/
def measure_contexts (table : List (Nat × List cpp_token)) (prevent_expansion : Bool) :
    List cpp_context → Nat
  | [] => 0
  | c :: cs =>
    1 + weight table prevent_expansion (table.length - (active_macros (c :: cs)).length)
        (active_macros (c :: cs)) c.tokens
      + measure_contexts table prevent_expansion cs

/-- The number of engine steps a state will still take. -/
def measure (table : List (Nat × List cpp_token)) (prevent_expansion : Bool)
    (s : expander) : Nat :=
  measure_contexts table prevent_expansion s.contexts
    + weight table prevent_expansion table.length [] s.input

/-- Well-formed context chains: no macro is active twice, and every active
macro is defined in the table. -/
def chain_ok (table : List (Nat × List cpp_token)) (contexts : List cpp_context) : Prop :=
  (active_macros contexts).Nodup ∧ ∀ n ∈ active_macros contexts, n ∈ table.map Prod.fst

/-! # Properties -/

/-! ## Signs in preprocessing numbers -/

/-- Claim C8: `VALID_SIGN (c, prevc)` holds exactly when `c` is `+` or `-` and
`prevc` is `e` or `E`, or `prevc` is `p` or `P` with `extended_numbers`
enabled; hence it is false for every other `c`, and enabling
`extended_numbers` keeps every valid sign valid. -/
theorem VALID_SIGN_iff (opts : cpp_options) (c prevc : Nat) :
    (VALID_SIGN opts c prevc = true ↔
      (c = '+'.toNat ∨ c = '-'.toNat) ∧
        (prevc = 'e'.toNat ∨ prevc = 'E'.toNat ∨
          ((prevc = 'p'.toNat ∨ prevc = 'P'.toNat) ∧ opts.extended_numbers ≠ 0)))
    ∧ (¬ (c = '+'.toNat ∨ c = '-'.toNat) → VALID_SIGN opts c prevc = false)
    ∧ (∀ o2 : cpp_options, o2.extended_numbers ≠ 0 →
        VALID_SIGN opts c prevc = true → VALID_SIGN o2 c prevc = true) := by
  have key : ∀ o : cpp_options, VALID_SIGN o c prevc = true ↔
      (c = '+'.toNat ∨ c = '-'.toNat) ∧
        (prevc = 'e'.toNat ∨ prevc = 'E'.toNat ∨
          ((prevc = 'p'.toNat ∨ prevc = 'P'.toNat) ∧ o.extended_numbers ≠ 0)) := by
    intro o
    simp [VALID_SIGN, or_assoc]
  refine ⟨key opts, ?_, ?_⟩
  · intro h
    cases hv : VALID_SIGN opts c prevc
    · rfl
    · exact absurd ((key opts).mp hv).1 h
  · intro o2 hon hv
    obtain ⟨hc, hp⟩ := (key opts).mp hv
    refine (key o2).mpr ⟨hc, ?_⟩
    rcases hp with h | h | ⟨h, _⟩
    · exact Or.inl h
    · exact Or.inr (Or.inl h)
    · exact Or.inr (Or.inr ⟨h, hon⟩)

/-! ## Character classes -/

/-- Claim C9: `is_numchar` implies `is_idchar`; the two differ only at `$`
with `dollars_in_ident` enabled; `is_idstart` differs from `ISIDST` only
there as well; with the option disabled `is_idchar`, `is_numchar` and
`ISIDNUM` coincide and `is_idstart` is `ISIDST`. -/
theorem idchar_numchar_classes (ISIDNUM ISIDST : Nat → Bool) (opts : cpp_options)
    (x : Nat) :
    (is_numchar ISIDNUM x = true → is_idchar ISIDNUM opts x = true)
    ∧ (is_idchar ISIDNUM opts x = true → is_numchar ISIDNUM x = false →
        x = '$'.toNat ∧ opts.dollars_in_ident ≠ 0)
    ∧ (is_idchar ISIDNUM opts x ≠ is_numchar ISIDNUM x →
        x = '$'.toNat ∧ opts.dollars_in_ident ≠ 0)
    ∧ (is_idstart ISIDST opts x ≠ ISIDST x →
        x = '$'.toNat ∧ opts.dollars_in_ident ≠ 0)
    ∧ (opts.dollars_in_ident = 0 →
        is_idchar ISIDNUM opts x = is_numchar ISIDNUM x
        ∧ is_numchar ISIDNUM x = ISIDNUM x
        ∧ is_idstart ISIDST opts x = ISIDST x) := by
  refine ⟨?_, ?_, ?_, ?_, ?_⟩
  · intro h
    simp [is_idchar, is_numchar] at *
    exact Or.inl h
  · intro h1 h2
    simp [is_idchar, is_numchar, _dollar_ok] at *
    simpa [h2] using h1
  · intro h
    cases hn : ISIDNUM x <;> simp [is_idchar, is_numchar, _dollar_ok, hn] at h ⊢
    exact h
  · intro h
    cases hn : ISIDST x <;> simp [is_idstart, _dollar_ok, hn] at h ⊢
    exact h
  · intro h
    simp [is_idchar, is_numchar, is_idstart, _dollar_ok, h]

/-! ## Marking macros as used -/

/-- The branch condition of `_cpp_mark_macro_used`, as a proposition. -/
theorem mark_cond_iff (NT_MACRO NODE_BUILTIN : Nat) (n : cpp_hashnode) :
    (n.type == NT_MACRO && (n.flags &&& NODE_BUILTIN) == 0) = true ↔
      (n.type = NT_MACRO ∧ n.flags &&& NODE_BUILTIN = 0) := by
  simp

/-- The mark leaves the node store alone. -/
theorem mark_nodes (NT_MACRO NODE_BUILTIN : Nat) (mem : Memory) (NODE : Nat) :
    (_cpp_mark_macro_used NT_MACRO NODE_BUILTIN mem NODE).nodes = mem.nodes := by
  unfold _cpp_mark_macro_used
  split <;> rfl

/-- The macro store after a mark that takes the branch. -/
theorem mark_macros_of_cond (NT_MACRO NODE_BUILTIN : Nat) (mem : Memory) (NODE : Nat)
    (h : (mem.nodes NODE).type = NT_MACRO ∧ (mem.nodes NODE).flags &&& NODE_BUILTIN = 0) :
    (_cpp_mark_macro_used NT_MACRO NODE_BUILTIN mem NODE).macros =
      Function.update mem.macros (mem.nodes NODE).value
        { mem.macros (mem.nodes NODE).value with used := 1 } := by
  unfold _cpp_mark_macro_used
  rw [if_pos ((mark_cond_iff NT_MACRO NODE_BUILTIN _).mpr h)]

/-- A mark that does not take the branch is the identity. -/
theorem mark_of_not_cond (NT_MACRO NODE_BUILTIN : Nat) (mem : Memory) (NODE : Nat)
    (h : ¬ ((mem.nodes NODE).type = NT_MACRO ∧ (mem.nodes NODE).flags &&& NODE_BUILTIN = 0)) :
    _cpp_mark_macro_used NT_MACRO NODE_BUILTIN mem NODE = mem := by
  unfold _cpp_mark_macro_used
  rw [if_neg (fun hc => h ((mark_cond_iff NT_MACRO NODE_BUILTIN _).mp hc))]

/-- A mark never clears a `used` flag, whichever macro it belongs to. -/
theorem mark_used_mono (NT_MACRO NODE_BUILTIN : Nat) (mem : Memory) (NODE p : Nat)
    (hp : (mem.macros p).used ≠ 0) :
    ((_cpp_mark_macro_used NT_MACRO NODE_BUILTIN mem NODE).macros p).used ≠ 0 := by
  by_cases h : (mem.nodes NODE).type = NT_MACRO ∧ (mem.nodes NODE).flags &&& NODE_BUILTIN = 0
  · rw [mark_macros_of_cond _ _ _ _ h]
    by_cases hpe : p = (mem.nodes NODE).value
    · subst hpe; simp
    · rw [Function.update_noteq hpe]; exact hp
  · rw [mark_of_not_cond _ _ _ _ h]; exact hp

/-- The mark is idempotent. -/
theorem mark_idem (NT_MACRO NODE_BUILTIN : Nat) (mem : Memory) (NODE : Nat) :
    _cpp_mark_macro_used NT_MACRO NODE_BUILTIN
        (_cpp_mark_macro_used NT_MACRO NODE_BUILTIN mem NODE) NODE =
      _cpp_mark_macro_used NT_MACRO NODE_BUILTIN mem NODE := by
  by_cases h : (mem.nodes NODE).type = NT_MACRO ∧ (mem.nodes NODE).flags &&& NODE_BUILTIN = 0
  · have hc := (mark_cond_iff NT_MACRO NODE_BUILTIN _).mpr h
    simp only [_cpp_mark_macro_used, hc, if_true, Function.update_same,
      Function.update_idem]
  · rw [mark_of_not_cond _ _ _ _ h, mark_of_not_cond _ _ _ _ h]

/-- Repeated marks collapse to one. -/
theorem mark_times_succ (NT_MACRO NODE_BUILTIN : Nat) (NODE : Nat) (n : Nat) (mem : Memory) :
    mark_times NT_MACRO NODE_BUILTIN NODE (n + 1) mem =
      _cpp_mark_macro_used NT_MACRO NODE_BUILTIN mem NODE := by
  induction n generalizing mem with
  | zero => rfl
  | succ k ih =>
    show mark_times NT_MACRO NODE_BUILTIN NODE (k + 1)
        (_cpp_mark_macro_used NT_MACRO NODE_BUILTIN mem NODE) = _
    rw [ih, mark_idem]

/-- Claim C1: after `_cpp_mark_macro_used (node)` the `used` flag of the
node's macro definition is set if and only if it was set before or the node
has type `NT_MACRO` and is not flagged `NODE_BUILTIN`; no `used` flag is ever
cleared; the mark is idempotent; and after one or more marks on a
non-builtin macro node the flag is 1. -/
theorem mark_macro_used_flag (NT_MACRO NODE_BUILTIN : Nat) (mem : Memory) (NODE : Nat) :
    (((_cpp_mark_macro_used NT_MACRO NODE_BUILTIN mem NODE).macros
          ((_cpp_mark_macro_used NT_MACRO NODE_BUILTIN mem NODE).nodes NODE).value).used ≠ 0
      ↔ ((mem.macros (mem.nodes NODE).value).used ≠ 0
          ∨ ((mem.nodes NODE).type = NT_MACRO
              ∧ (mem.nodes NODE).flags &&& NODE_BUILTIN = 0)))
    ∧ (∀ p, (mem.macros p).used ≠ 0 →
        ((_cpp_mark_macro_used NT_MACRO NODE_BUILTIN mem NODE).macros p).used ≠ 0)
    ∧ (∀ n p, (mem.macros p).used ≠ 0 →
        ((mark_times NT_MACRO NODE_BUILTIN NODE n mem).macros p).used ≠ 0)
    ∧ (_cpp_mark_macro_used NT_MACRO NODE_BUILTIN
          (_cpp_mark_macro_used NT_MACRO NODE_BUILTIN mem NODE) NODE
        = _cpp_mark_macro_used NT_MACRO NODE_BUILTIN mem NODE)
    ∧ ((mem.nodes NODE).type = NT_MACRO ∧ (mem.nodes NODE).flags &&& NODE_BUILTIN = 0 →
        ∀ n, ((mark_times NT_MACRO NODE_BUILTIN NODE (n + 1) mem).macros
          (mem.nodes NODE).value).used = 1) := by
  refine ⟨?_, fun p hp => mark_used_mono _ _ _ _ p hp, ?_, mark_idem _ _ _ _, ?_⟩
  · rw [mark_nodes]
    by_cases h : (mem.nodes NODE).type = NT_MACRO ∧ (mem.nodes NODE).flags &&& NODE_BUILTIN = 0
    · rw [mark_macros_of_cond _ _ _ _ h]
      simp [h]
    · rw [mark_of_not_cond _ _ _ _ h]
      simp [h]
  · intro n p hp
    cases n with
    | zero => exact hp
    | succ k => rw [mark_times_succ]; exact mark_used_mono _ _ _ _ p hp
  · intro h n
    rw [mark_times_succ, mark_macros_of_cond _ _ _ _ h]
    simp

/-- Claim C2: `_cpp_mark_macro_used` changes nothing but the `used` flag of the
node's macro definition: every node keeps its type, flags and value, every
macro definition keeps its parameters, replacement, line, count, paramc and
its fun_like, variadic and syshdr flags, every other macro definition is
untouched, and when the node is not a macro or is a builtin the whole memory
is exactly as before. -/
theorem mark_macro_used_frame (NT_MACRO NODE_BUILTIN : Nat) (mem : Memory) (NODE : Nat) :
    (_cpp_mark_macro_used NT_MACRO NODE_BUILTIN mem NODE).nodes = mem.nodes
    ∧ (∀ p,
        ((_cpp_mark_macro_used NT_MACRO NODE_BUILTIN mem NODE).macros p).params
            = (mem.macros p).params
        ∧ ((_cpp_mark_macro_used NT_MACRO NODE_BUILTIN mem NODE).macros p).exp
            = (mem.macros p).exp
        ∧ ((_cpp_mark_macro_used NT_MACRO NODE_BUILTIN mem NODE).macros p).line
            = (mem.macros p).line
        ∧ ((_cpp_mark_macro_used NT_MACRO NODE_BUILTIN mem NODE).macros p).count
            = (mem.macros p).count
        ∧ ((_cpp_mark_macro_used NT_MACRO NODE_BUILTIN mem NODE).macros p).paramc
            = (mem.macros p).paramc
        ∧ ((_cpp_mark_macro_used NT_MACRO NODE_BUILTIN mem NODE).macros p).fun_like
            = (mem.macros p).fun_like
        ∧ ((_cpp_mark_macro_used NT_MACRO NODE_BUILTIN mem NODE).macros p).variadic
            = (mem.macros p).variadic
        ∧ ((_cpp_mark_macro_used NT_MACRO NODE_BUILTIN mem NODE).macros p).syshdr
            = (mem.macros p).syshdr)
    ∧ (∀ p, p ≠ (mem.nodes NODE).value →
        (_cpp_mark_macro_used NT_MACRO NODE_BUILTIN mem NODE).macros p = mem.macros p)
    ∧ (¬ ((mem.nodes NODE).type = NT_MACRO ∧ (mem.nodes NODE).flags &&& NODE_BUILTIN = 0) →
        _cpp_mark_macro_used NT_MACRO NODE_BUILTIN mem NODE = mem) := by
  refine ⟨mark_nodes _ _ _ _, ?_, ?_, mark_of_not_cond _ _ _ _⟩
  · intro p
    by_cases h : (mem.nodes NODE).type = NT_MACRO ∧ (mem.nodes NODE).flags &&& NODE_BUILTIN = 0
    · rw [mark_macros_of_cond _ _ _ _ h]
      by_cases hpe : p = (mem.nodes NODE).value
      · subst hpe; simp
      · rw [Function.update_noteq hpe]; simp
    · rw [mark_of_not_cond _ _ _ _ h]; simp
  · intro p hp
    by_cases h : (mem.nodes NODE).type = NT_MACRO ∧ (mem.nodes NODE).flags &&& NODE_BUILTIN = 0
    · rw [mark_macros_of_cond _ _ _ _ h, Function.update_noteq hp]
    · rw [mark_of_not_cond _ _ _ _ h]

/-! ## Alignment -/

/-- Clearing the low `k` bits of a `w`-bit word rounds it down to a multiple
of `2 ^ k`. -/
theorem land_not_low_mask (w k x : Nat) (hk : k ≤ w) (hx : x < 2 ^ w) :
    x &&& (2 ^ w - 1 - (2 ^ k - 1)) = 2 ^ k * (x / 2 ^ k) := by
  have hpk : 2 ^ k ≤ 2 ^ w := Nat.pow_le_pow_right (by norm_num) hk
  have hpos : 0 < 2 ^ k := Nat.two_pow_pos k
  have e : 2 ^ w - 1 - (2 ^ k - 1) = 2 ^ w - ((2 ^ k - 1) + 1) := by omega
  have hlt : 2 ^ k - 1 < 2 ^ w := by omega
  apply Nat.eq_of_testBit_eq
  intro i
  rw [e, Nat.testBit_land, Nat.testBit_two_pow_sub_succ hlt, Nat.testBit_two_pow_sub_one,
    Nat.testBit_mul_pow_two, ← Nat.shiftRight_eq_div_pow, Nat.testBit_shiftRight]
  by_cases hik : k ≤ i
  · have hki : k + (i - k) = i := by omega
    rw [hki]
    by_cases hiw : i < w
    · simp [hik, hiw, Nat.not_lt.mpr hik]
    · have hbit : x.testBit i = false :=
        Nat.testBit_lt_two_pow
          (lt_of_lt_of_le hx (Nat.pow_le_pow_right (by norm_num) (by omega)))
      simp [hbit]
  · simp [hik]
    intro _ _; omega

/-- On a power-of-two alignment that fits the word, `CPP_ALIGN2` adds
`align - 1` modulo `2 ^ w` and rounds down to a multiple of `align`. -/
theorem CPP_ALIGN2_pow (w k size : Nat) (hk : k < w) :
    CPP_ALIGN2 w size (2 ^ k) = 2 ^ k * (((size + (2 ^ k - 1)) % 2 ^ w) / 2 ^ k) := by
  have hpk : 2 ^ k < 2 ^ w := Nat.pow_lt_pow_right (by norm_num) hk
  have hpos : 0 < 2 ^ k := Nat.two_pow_pos k
  have h1 : 1 % 2 ^ w = 1 := Nat.mod_eq_of_lt (by omega)
  have hsub : word_sub w (2 ^ k) 1 = 2 ^ k - 1 := by
    unfold word_sub
    rw [h1, Nat.mod_eq_of_lt hpk]
    have e : 2 ^ k + 2 ^ w - 1 = (2 ^ k - 1) + 2 ^ w := by omega
    rw [e, Nat.add_mod_right, Nat.mod_eq_of_lt (by omega)]
  have hnot : word_not w (2 ^ k - 1) = 2 ^ w - 1 - (2 ^ k - 1) := by
    unfold word_not
    rw [Nat.mod_eq_of_lt (by omega)]
  unfold CPP_ALIGN2
  rw [hsub, hnot]
  unfold word_add
  exact land_not_low_mask w k _ (le_of_lt hk) (Nat.mod_lt _ (Nat.two_pow_pos w))

/-- Claim C3: for a power-of-two `align` that fits the word and a `size` with
`size + align - 1` below `2 ^ w`, `CPP_ALIGN2 (size, align)` is the least
multiple of `align` that is at least `size`: it is divisible by `align`, lies
in `[size, size + align)`, is below every other such multiple, and equals
`size` exactly when `size` is a multiple of `align`; `CPP_ALIGN` is the same
rounding at `DEFAULT_ALIGNMENT`. -/
theorem CPP_ALIGN2_least_multiple (w size align : Nat)
    (hpow : ∃ k, align = 2 ^ k) (hfit : align < 2 ^ w)
    (hno : size + align - 1 < 2 ^ w) :
    align ∣ CPP_ALIGN2 w size align
    ∧ size ≤ CPP_ALIGN2 w size align
    ∧ CPP_ALIGN2 w size align < size + align
    ∧ (∀ m, align ∣ m → size ≤ m → CPP_ALIGN2 w size align ≤ m)
    ∧ (CPP_ALIGN2 w size align = size ↔ align ∣ size)
    ∧ CPP_ALIGN w align size = CPP_ALIGN2 w size align := by
  obtain ⟨k, rfl⟩ := hpow
  have hk : k < w := (Nat.pow_lt_pow_iff_right (by norm_num)).mp hfit
  have hpos : 0 < 2 ^ k := Nat.two_pow_pos k
  have hxe : size + (2 ^ k - 1) = size + 2 ^ k - 1 := by omega
  rw [CPP_ALIGN2_pow w k size hk, Nat.mod_eq_of_lt (by omega)]
  have hdm := Nat.div_add_mod (size + (2 ^ k - 1)) (2 ^ k)
  have hml := Nat.mod_lt (size + (2 ^ k - 1)) hpos
  have hmin : ∀ m, 2 ^ k ∣ m → size ≤ m →
      2 ^ k * ((size + (2 ^ k - 1)) / 2 ^ k) ≤ m := by
    rintro m ⟨c, rfl⟩ hsm
    apply Nat.mul_le_mul_left
    have hlt : 2 ^ k * ((size + (2 ^ k - 1)) / 2 ^ k) < 2 ^ k * (c + 1) := by
      rw [Nat.mul_add, Nat.mul_one]; omega
    exact Nat.lt_succ_iff.mp (Nat.lt_of_mul_lt_mul_left hlt)
  refine ⟨Dvd.intro _ rfl, by omega, by omega, hmin, ?_, ?_⟩
  · constructor
    · intro h
      exact ⟨_, h.symm⟩
    · intro h
      exact le_antisymm (hmin size h le_rfl) (by omega)
  · unfold CPP_ALIGN
    rw [CPP_ALIGN2_pow w k size hk, Nat.mod_eq_of_lt (by omega)]

/-- Witness for claim C3: rounding 13 up to a multiple of 8 on 32-bit words. -/
theorem CPP_ALIGN2_least_multiple_witness :
    8 ∣ CPP_ALIGN2 32 13 8
    ∧ 13 ≤ CPP_ALIGN2 32 13 8
    ∧ CPP_ALIGN2 32 13 8 < 13 + 8
    ∧ (∀ m, 8 ∣ m → 13 ≤ m → CPP_ALIGN2 32 13 8 ≤ m)
    ∧ (CPP_ALIGN2 32 13 8 = 13 ↔ 8 ∣ 13)
    ∧ CPP_ALIGN 32 8 13 = CPP_ALIGN2 32 13 8 :=
  CPP_ALIGN2_least_multiple 32 13 8 ⟨3, by decide⟩ (by decide) (by decide)

/-- Claim C10: `CPP_ALIGN2` wraps around: on `w`-bit words, for every
power-of-two `align` above 1, every `size` above `2 ^ w - align` is rounded to
0, which is below `size`; such a size always exists. -/
theorem CPP_ALIGN2_wraps (w align : Nat) (hpow : ∃ k, align = 2 ^ k) (h1 : 1 < align)
    (hfit : align < 2 ^ w) :
    (∀ size, size < 2 ^ w → 2 ^ w - align < size →
        CPP_ALIGN2 w size align = 0 ∧ CPP_ALIGN2 w size align < size)
    ∧ (∃ size, size < 2 ^ w ∧ CPP_ALIGN2 w size align < size) := by
  obtain ⟨k, rfl⟩ := hpow
  have hk : k < w := (Nat.pow_lt_pow_iff_right (by norm_num)).mp hfit
  have hall : ∀ size, size < 2 ^ w → 2 ^ w - 2 ^ k < size →
      CPP_ALIGN2 w size (2 ^ k) = 0 ∧ CPP_ALIGN2 w size (2 ^ k) < size := by
    intro size hs hgt
    have hz : CPP_ALIGN2 w size (2 ^ k) = 0 := by
      rw [CPP_ALIGN2_pow w k size hk]
      have e : size + (2 ^ k - 1) = (size + (2 ^ k - 1) - 2 ^ w) + 2 ^ w := by omega
      rw [e, Nat.add_mod_right, Nat.mod_eq_of_lt (by omega), Nat.div_eq_of_lt (by omega), Nat.mul_zero]
    rw [hz]
    exact ⟨rfl, by omega⟩
  exact ⟨hall, 2 ^ w - 1, by omega, (hall (2 ^ w - 1) (by omega) (by omega)).2⟩

/-- Witness for claim C10: on 8-bit words sizes 249 to 255 round to 0 at
alignment 8. -/
theorem CPP_ALIGN2_wraps_witness :
    (∀ size, size < 2 ^ 8 → 2 ^ 8 - 8 < size →
        CPP_ALIGN2 8 size 8 = 0 ∧ CPP_ALIGN2 8 size 8 < size)
    ∧ (∃ size, size < 2 ^ 8 ∧ CPP_ALIGN2 8 size 8 < size) :=
  CPP_ALIGN2_wraps 8 8 ⟨3, by decide⟩ (by decide) (by decide)

/-! ## Buffer room -/

/-- Below the word size, with the cursor at or before the limit, the converted
pointer difference is the plain difference. -/
theorem BUFF_ROOM_eq (w : Nat) (b : _cpp_buff) (hinv : b.cur ≤ b.limit)
    (hw : b.limit < 2 ^ w) : BUFF_ROOM w b = b.limit - b.cur := by
  unfold BUFF_ROOM
  have h1 : ((b.limit : Int) - (b.cur : Int)) = ((b.limit - b.cur : Nat) : Int) := by
    omega
  have h2 : ((2 : Int) ^ w) = ((2 ^ w : Nat) : Int) := by push_cast; rfl
  rw [h1, h2, ← Int.natCast_mod, Int.toNat_ofNat]
  exact Nat.mod_eq_of_lt (by omega)

/-- Claim C4: for a buffer whose cursor does not exceed its limit (the limit
being an address of the `w`-bit machine), `BUFF_FRONT + BUFF_ROOM` is
`BUFF_LIMIT`, `BUFF_ROOM` is zero exactly when the cursor is at the limit, and
advancing the cursor by `n ≤ BUFF_ROOM` keeps the cursor within the limit and
lowers `BUFF_ROOM` by exactly `n`. -/
theorem BUFF_ROOM_spec (w : Nat) (b : _cpp_buff) (hinv : b.cur ≤ b.limit)
    (hw : b.limit < 2 ^ w) :
    BUFF_FRONT b + BUFF_ROOM w b = BUFF_LIMIT b
    ∧ (BUFF_ROOM w b = 0 ↔ BUFF_FRONT b = BUFF_LIMIT b)
    ∧ (∀ n, n ≤ BUFF_ROOM w b →
        (BUFF_FRONT_advance b n).cur ≤ (BUFF_FRONT_advance b n).limit
        ∧ BUFF_LIMIT (BUFF_FRONT_advance b n) = BUFF_LIMIT b
        ∧ BUFF_FRONT (BUFF_FRONT_advance b n) = BUFF_FRONT b + n
        ∧ BUFF_ROOM w (BUFF_FRONT_advance b n) = BUFF_ROOM w b - n) := by
  have hroom := BUFF_ROOM_eq w b hinv hw
  refine ⟨?_, ?_, ?_⟩
  · unfold BUFF_FRONT BUFF_LIMIT; omega
  · unfold BUFF_FRONT BUFF_LIMIT; omega
  · intro n hn
    have hinv2 : (BUFF_FRONT_advance b n).cur ≤ (BUFF_FRONT_advance b n).limit := by
      show b.cur + n ≤ b.limit
      omega
    have hroom2 := BUFF_ROOM_eq w (BUFF_FRONT_advance b n) hinv2 hw
    refine ⟨hinv2, rfl, rfl, ?_⟩
    rw [hroom2, hroom]
    show b.limit - (b.cur + n) = b.limit - b.cur - n
    omega

/-- Witness for claim C4: a 32-bit buffer with cursor 112 and limit 164. -/
theorem BUFF_ROOM_spec_witness :
    BUFF_FRONT ⟨0, 100, 112, 164⟩ + BUFF_ROOM 32 ⟨0, 100, 112, 164⟩
        = BUFF_LIMIT ⟨0, 100, 112, 164⟩
    ∧ (BUFF_ROOM 32 ⟨0, 100, 112, 164⟩ = 0
        ↔ BUFF_FRONT ⟨0, 100, 112, 164⟩ = BUFF_LIMIT ⟨0, 100, 112, 164⟩)
    ∧ (∀ n, n ≤ BUFF_ROOM 32 ⟨0, 100, 112, 164⟩ →
        (BUFF_FRONT_advance ⟨0, 100, 112, 164⟩ n).cur
            ≤ (BUFF_FRONT_advance ⟨0, 100, 112, 164⟩ n).limit
        ∧ BUFF_LIMIT (BUFF_FRONT_advance ⟨0, 100, 112, 164⟩ n)
            = BUFF_LIMIT ⟨0, 100, 112, 164⟩
        ∧ BUFF_FRONT (BUFF_FRONT_advance ⟨0, 100, 112, 164⟩ n)
            = BUFF_FRONT ⟨0, 100, 112, 164⟩ + n
        ∧ BUFF_ROOM 32 (BUFF_FRONT_advance ⟨0, 100, 112, 164⟩ n)
            = BUFF_ROOM 32 ⟨0, 100, 112, 164⟩ - n) :=
  BUFF_ROOM_spec 32 ⟨0, 100, 112, 164⟩ (by decide) (by decide)

/-! ## The buffer stack bound -/

theorem stack_file_depth (pfile : cpp_reader) (content : List source_line)
    (file : Option Nat) (h : pfile.buffer.length ≤ CPP_STACK_MAX) :
    (_cpp_stack_file pfile content file).2.buffer.length ≤ CPP_STACK_MAX := by
  unfold _cpp_stack_file
  split
  · exact h
  · simp only [List.length_cons]; omega

theorem stack_include_depth (open_file : Nat → Option (List source_line))
    (pfile : cpp_reader) (fname : Nat) (h : pfile.buffer.length ≤ CPP_STACK_MAX) :
    (_cpp_stack_include open_file pfile fname).2.buffer.length ≤ CPP_STACK_MAX := by
  unfold _cpp_stack_include
  split
  · exact h
  · split
    · exact h
    · exact stack_file_depth _ _ _ h

theorem pop_buffer_depth (pfile : cpp_reader) (h : pfile.buffer.length ≤ CPP_STACK_MAX) :
    (_cpp_pop_buffer pfile).buffer.length ≤ CPP_STACK_MAX := by
  simp only [_cpp_pop_buffer, List.length_tail]
  omega

theorem read_step_depth (open_file : Nat → Option (List source_line))
    (pfile : cpp_reader) (h : pfile.buffer.length ≤ CPP_STACK_MAX) :
    (read_step open_file pfile).buffer.length ≤ CPP_STACK_MAX := by
  unfold read_step
  split
  · exact h
  · split
    · exact h
    · rename_i b rest hb
      rw [hb] at h
      split
      · have := pop_buffer_depth pfile (by rw [hb]; exact h)
        exact this
      · exact h
      · exact stack_include_depth _ _ _ h

theorem reachable_depth (open_file : Nat → Option (List source_line)) (pfile : cpp_reader)
    (h : reachable open_file pfile) : pfile.buffer.length ≤ CPP_STACK_MAX := by
  induction h with
  | create => simp [cpp_create_reader]
  | stack_file pfile content file _ ih => exact stack_file_depth _ _ _ ih
  | stack_include pfile fname _ ih => exact stack_include_depth _ _ _ ih
  | pop_buffer pfile _ ih => exact pop_buffer_depth _ ih
  | step pfile _ ih => exact read_step_depth _ _ ih

theorem read_run_add (open_file : Nat → Option (List source_line)) (a b : Nat)
    (pfile : cpp_reader) :
    read_run open_file (a + b) pfile = read_run open_file b (read_run open_file a pfile) := by
  induction a generalizing pfile with
  | zero => simp [read_run]
  | succ a ih =>
    rw [Nat.add_right_comm]
    simp only [read_run]
    exact ih _

theorem read_run_fatal (open_file : Nat → Option (List source_line)) (n : Nat)
    (pfile : cpp_reader) (h : pfile.fatal = true) : read_run open_file n pfile = pfile := by
  induction n with
  | zero => rfl
  | succ n ih =>
    have hs : read_step open_file pfile = pfile := by simp [read_step, h]
    simp only [read_run, hs]
    exact ih

/-- Reading a run of ordinary lines consumes them and nothing else. -/
theorem read_run_text (open_file : Nat → Option (List source_line)) (cs : List Nat)
    (more : List source_line) (file : Option Nat) (bs : List cpp_buffer) (e : Nat) :
    read_run open_file cs.length ⟨⟨cs.map source_line.text ++ more, file⟩ :: bs, e, false⟩
      = ⟨⟨more, file⟩ :: bs, e, false⟩ := by
  induction cs with
  | nil => rfl
  | cons c cs ih =>
    simp only [List.length_cons, read_run, List.map_cons, List.cons_append]
    have hs : read_step open_file
        ⟨⟨source_line.text c :: (cs.map source_line.text ++ more), file⟩ :: bs, e, false⟩
        = ⟨⟨cs.map source_line.text ++ more, file⟩ :: bs, e, false⟩ := by
      simp [read_step]
    rw [hs]
    exact ih

/-- One level of self-inclusion below the depth limit. -/
theorem read_run_level (open_file : Nat → Option (List source_line)) (fname : Nat)
    (cs : List Nat) (post : List source_line)
    (hopen : open_file fname
      = some (cs.map source_line.text ++ source_line.include_file fname :: post))
    (bs : List cpp_buffer) (hdepth : bs.length + 1 < CPP_STACK_MAX) :
    read_run open_file (cs.length + 1)
        ⟨⟨cs.map source_line.text ++ source_line.include_file fname :: post, some fname⟩ :: bs,
          0, false⟩
      = ⟨⟨cs.map source_line.text ++ source_line.include_file fname :: post, some fname⟩
          :: ⟨post, some fname⟩ :: bs, 0, false⟩ := by
  rw [read_run_add, read_run_text]
  have h1 : ¬ CPP_STACK_MAX ≤ bs.length + 1 := by omega
  simp [read_run, read_step, _cpp_stack_include, _cpp_stack_file, hopen, h1]

/-- The inclusion at the depth limit is fatal. -/
theorem read_run_limit (open_file : Nat → Option (List source_line)) (fname : Nat)
    (cs : List Nat) (post : List source_line)
    (bs : List cpp_buffer) (hdepth : bs.length + 1 = CPP_STACK_MAX) :
    read_run open_file (cs.length + 1)
        ⟨⟨cs.map source_line.text ++ source_line.include_file fname :: post, some fname⟩ :: bs,
          0, false⟩
      = ⟨⟨post, some fname⟩ :: bs, 1, true⟩ := by
  rw [read_run_add, read_run_text]
  have h1 : CPP_STACK_MAX ≤ bs.length + 1 := by omega
  simp [read_run, read_step, _cpp_stack_include, h1]

theorem read_run_levels (open_file : Nat → Option (List source_line)) (fname : Nat)
    (cs : List Nat) (post : List source_line)
    (hopen : open_file fname
      = some (cs.map source_line.text ++ source_line.include_file fname :: post))
    (j : Nat) (hj : j + 1 ≤ CPP_STACK_MAX) :
    read_run open_file (j * (cs.length + 1))
        ⟨[⟨cs.map source_line.text ++ source_line.include_file fname :: post, some fname⟩],
          0, false⟩
      = ⟨⟨cs.map source_line.text ++ source_line.include_file fname :: post, some fname⟩
          :: List.replicate j ⟨post, some fname⟩, 0, false⟩ := by
  induction j with
  | zero => simp [read_run]
  | succ j ih =>
    rw [Nat.succ_mul, read_run_add, ih (by omega),
      read_run_level open_file fname cs post hopen _ (by simp; omega)]
    simp [List.replicate_succ]

/-! ### Termination of reading -/

theorem read_step_text (open_file : Nat → Option (List source_line)) (c : Nat)
    (more : List source_line) (file : Option Nat) (bs : List cpp_buffer) (e : Nat) :
    read_step open_file ⟨⟨source_line.text c :: more, file⟩ :: bs, e, false⟩
      = ⟨⟨more, file⟩ :: bs, e, false⟩ := by
  simp [read_step]

theorem read_step_pop (open_file : Nat → Option (List source_line))
    (file : Option Nat) (bs : List cpp_buffer) (e : Nat) :
    read_step open_file ⟨⟨[], file⟩ :: bs, e, false⟩ = ⟨bs, e, false⟩ := by
  simp [read_step, _cpp_pop_buffer]

theorem read_step_include (open_file : Nat → Option (List source_line)) (fname : Nat)
    (more : List source_line) (file : Option Nat) (bs : List cpp_buffer) (e : Nat) :
    read_step open_file ⟨⟨source_line.include_file fname :: more, file⟩ :: bs, e, false⟩
      = (_cpp_stack_include open_file ⟨⟨more, file⟩ :: bs, e, false⟩ fname).2 := by
  simp [read_step]

theorem stack_include_limit (open_file : Nat → Option (List source_line)) (fname : Nat)
    (bs : List cpp_buffer) (e : Nat) (h : CPP_STACK_MAX ≤ bs.length) :
    (_cpp_stack_include open_file ⟨bs, e, false⟩ fname).2 = ⟨bs, e + 1, true⟩ := by
  simp [_cpp_stack_include, h]

theorem stack_include_missing (open_file : Nat → Option (List source_line)) (fname : Nat)
    (bs : List cpp_buffer) (e : Nat) (h : ¬ CPP_STACK_MAX ≤ bs.length)
    (hopen : open_file fname = none) :
    (_cpp_stack_include open_file ⟨bs, e, false⟩ fname).2 = ⟨bs, e + 1, false⟩ := by
  simp [_cpp_stack_include, h, hopen]

theorem stack_include_found (open_file : Nat → Option (List source_line)) (fname : Nat)
    (bs : List cpp_buffer) (e : Nat) (h : ¬ CPP_STACK_MAX ≤ bs.length)
    (content : List source_line) (hopen : open_file fname = some content) :
    (_cpp_stack_include open_file ⟨bs, e, false⟩ fname).2
      = ⟨⟨content, some fname⟩ :: bs, e, false⟩ := by
  simp [_cpp_stack_include, _cpp_stack_file, h, hopen]

/-- A run that is abandoned or has no buffer left stays as it is. -/
theorem read_run_halted (open_file : Nat → Option (List source_line)) (n : Nat)
    (pfile : cpp_reader) (h : pfile.fatal = true ∨ pfile.buffer = []) :
    read_run open_file n pfile = pfile := by
  induction n with
  | zero => rfl
  | succ n ih =>
    have hs : read_step open_file pfile = pfile := by
      rcases h with h | h
      · simp [read_step, h]
      · unfold read_step
        split
        · rfl
        · simp [h]
    simp only [read_run, hs]
    exact ih

theorem read_run_succ_left (open_file : Nat → Option (List source_line)) (n : Nat)
    (pfile : cpp_reader) :
    read_run open_file (1 + n) pfile = read_run open_file n (read_step open_file pfile) := by
  rw [Nat.add_comm]
  rfl

/-- Reading the first lines of the top buffer, with every file they include,
ends after finitely many steps: either the run is abandoned by a fatal
diagnostic, or exactly those lines are consumed and the stack below the top
buffer is as before. -/
theorem read_run_lines (open_file : Nat → Option (List source_line)) :
    ∀ (d : Nat) (bs : List cpp_buffer), CPP_STACK_MAX - (bs.length + 1) = d →
      ∀ (pre more : List source_line) (file : Option Nat) (e : Nat),
        ∃ n, (read_run open_file n ⟨⟨pre ++ more, file⟩ :: bs, e, false⟩).fatal = true
          ∨ ∃ e2, read_run open_file n ⟨⟨pre ++ more, file⟩ :: bs, e, false⟩
              = ⟨⟨more, file⟩ :: bs, e2, false⟩ := by
  intro d
  induction d using Nat.strong_induction_on with
  | _ d ihd =>
    intro bs hd pre
    induction pre with
    | nil =>
      intro more file e
      exact ⟨0, Or.inr ⟨e, rfl⟩⟩
    | cons l pre ihp =>
      intro more file e
      cases l with
      | text c =>
        obtain ⟨n, hn⟩ := ihp more file e
        refine ⟨1 + n, ?_⟩
        rw [read_run_succ_left, List.cons_append, read_step_text]
        exact hn
      | include_file fname =>
        by_cases hlim : CPP_STACK_MAX ≤ bs.length + 1
        · refine ⟨1, Or.inl ?_⟩
          show (read_step open_file _).fatal = true
          rw [List.cons_append, read_step_include,
            stack_include_limit open_file fname _ e (by simpa using hlim)]
        · cases hopen : open_file fname with
          | none =>
            obtain ⟨n, hn⟩ := ihp more file (e + 1)
            refine ⟨1 + n, ?_⟩
            rw [read_run_succ_left, List.cons_append, read_step_include,
              stack_include_missing open_file fname _ e (by simpa using hlim) hopen]
            exact hn
          | some content =>
            have hstep : read_step open_file
                ⟨⟨(source_line.include_file fname :: pre) ++ more, file⟩ :: bs, e, false⟩
                = ⟨⟨content, some fname⟩ :: ⟨pre ++ more, file⟩ :: bs, e, false⟩ := by
              rw [List.cons_append, read_step_include,
                stack_include_found open_file fname _ e (by simpa using hlim) content hopen]
            obtain ⟨n1, h1⟩ := ihd (d - 1) (by omega) (⟨pre ++ more, file⟩ :: bs)
              (by simp only [List.length_cons]; omega) content [] (some fname) e
            rw [List.append_nil] at h1
            rcases h1 with h1 | ⟨e1, h1⟩
            · refine ⟨1 + n1, Or.inl ?_⟩
              rw [read_run_succ_left, hstep]
              exact h1
            · obtain ⟨n2, h2⟩ := ihp more file e1
              refine ⟨1 + (n1 + (1 + n2)), ?_⟩
              rw [read_run_succ_left, hstep, read_run_add, h1, read_run_succ_left,
                read_step_pop]
              exact h2

/-- Reading any stack of buffers ends after finitely many steps. -/
theorem read_run_stack (open_file : Nat → Option (List source_line)) :
    ∀ (bs : List cpp_buffer) (e : Nat),
      ∃ n, (read_run open_file n ⟨bs, e, false⟩).fatal = true
        ∨ (read_run open_file n ⟨bs, e, false⟩).buffer = [] := by
  intro bs
  induction bs with
  | nil =>
    intro e
    exact ⟨0, Or.inr rfl⟩
  | cons b bs ih =>
    intro e
    obtain ⟨cur, file⟩ := b
    obtain ⟨n1, h1⟩ := read_run_lines open_file _ bs rfl cur [] file e
    rw [List.append_nil] at h1
    rcases h1 with h1 | ⟨e1, h1⟩
    · exact ⟨n1, Or.inl h1⟩
    · obtain ⟨n2, h2⟩ := ih e1
      refine ⟨n1 + (1 + n2), ?_⟩
      rw [read_run_add, h1, read_run_succ_left, read_step_pop]
      exact h2

/-- Reading ends from every reader state. -/
theorem read_run_terminates (open_file : Nat → Option (List source_line))
    (pfile : cpp_reader) :
    ∃ n, (read_run open_file n pfile).fatal = true
      ∨ (read_run open_file n pfile).buffer = [] := by
  obtain ⟨bs, e, fatal⟩ := pfile
  cases fatal with
  | true => exact ⟨0, Or.inl rfl⟩
  | false => exact read_run_stack open_file bs e

/-- Within a set of files each of which includes another file of the set,
reading a file of the set is abandoned by the fatal diagnostic. -/
theorem read_run_cycle (open_file : Nat → Option (List source_line)) (C : Nat → Prop)
    (hC : ∀ g, C g → ∃ (pre : List source_line) (h : Nat) (post : List source_line),
      C h ∧ open_file g = some (pre ++ source_line.include_file h :: post)) :
    ∀ (d : Nat) (bs : List cpp_buffer), CPP_STACK_MAX - (bs.length + 1) = d →
      ∀ (g : Nat), C g → ∀ (content : List source_line), open_file g = some content →
        ∀ (file : Option Nat) (e : Nat),
          ∃ n, (read_run open_file n ⟨⟨content, file⟩ :: bs, e, false⟩).fatal = true := by
  intro d
  induction d with
  | zero =>
    intro bs hd g hg content hopen file e
    obtain ⟨pre, h, post, _, hcont⟩ := hC g hg
    rw [hopen, Option.some.injEq] at hcont
    subst hcont
    obtain ⟨n1, h1⟩ := read_run_lines open_file _ bs rfl pre
      (source_line.include_file h :: post) file e
    rcases h1 with h1 | ⟨e1, h1⟩
    · exact ⟨n1, h1⟩
    · refine ⟨n1 + 1, ?_⟩
      rw [read_run_add, h1]
      show (read_step open_file _).fatal = true
      rw [read_step_include,
        stack_include_limit open_file h _ e1 (by simp only [List.length_cons]; omega)]
  | succ d ih =>
    intro bs hd g hg content hopen file e
    obtain ⟨pre, h, post, hh, hcont⟩ := hC g hg
    rw [hopen, Option.some.injEq] at hcont
    subst hcont
    obtain ⟨pre2, h2, post2, _, hopen2⟩ := hC h hh
    obtain ⟨n1, h1⟩ := read_run_lines open_file _ bs rfl pre
      (source_line.include_file h :: post) file e
    rcases h1 with h1 | ⟨e1, h1⟩
    · exact ⟨n1, h1⟩
    · obtain ⟨n2, hn2⟩ := ih (⟨post, file⟩ :: bs) (by simp only [List.length_cons]; omega)
        h hh _ hopen2 (some h) e1
      refine ⟨n1 + (1 + n2), ?_⟩
      rw [read_run_add, h1, read_run_succ_left, read_step_include,
        stack_include_found open_file h _ e1 (by simp only [List.length_cons]; omega)
          _ hopen2]
      exact hn2

theorem read_run_reachable (open_file : Nat → Option (List source_line)) (n : Nat)
    (pfile : cpp_reader) (h : reachable open_file pfile) :
    reachable open_file (read_run open_file n pfile) := by
  induction n generalizing pfile with
  | zero => exact h
  | succ n ih => exact ih _ (reachable.step pfile h)

/-- Claim C5: the buffer stack is bounded by `CPP_STACK_MAX` = 200: every
reachable reader state has at most that many nested buffers; an inclusion
attempted at that depth fails with a fatal diagnostic and pushes nothing;
reading a file that includes itself (after any number of ordinary lines) ends,
after finitely many steps, in a state abandoned by the fatal diagnostic with
the stack at the limit, where every further step leaves it; reading ends
after finitely many steps from every reader state and for every file-open
service, abandoned or with no buffer left; and reading a file that lies on an
inclusion cycle, direct or through other files, or on any unending chain of
inclusions, is abandoned by the fatal diagnostic with the stack within the
limit. -/
theorem buffer_stack_bounded (open_file : Nat → Option (List source_line)) :
    CPP_STACK_MAX = 200
    ∧ (∀ pfile, reachable open_file pfile → pfile.buffer.length ≤ CPP_STACK_MAX)
    ∧ (∀ pfile fname, pfile.buffer.length = CPP_STACK_MAX →
        _cpp_stack_include open_file pfile fname
          = (false, { pfile with errors := pfile.errors + 1, fatal := true })
        ∧ (_cpp_stack_include open_file pfile fname).2.buffer = pfile.buffer
        ∧ (_cpp_stack_include open_file pfile fname).2.fatal = true)
    ∧ (∀ (fname : Nat) (cs : List Nat) (post : List source_line),
        open_file fname
          = some (cs.map source_line.text ++ source_line.include_file fname :: post) →
        ∃ n, ∀ m, n ≤ m →
          (read_run open_file m
              (_cpp_stack_include open_file cpp_create_reader fname).2).fatal = true
          ∧ (read_run open_file m
              (_cpp_stack_include open_file cpp_create_reader fname).2).errors = 1
          ∧ (read_run open_file m
              (_cpp_stack_include open_file cpp_create_reader fname).2).buffer.length
                = CPP_STACK_MAX
          ∧ read_step open_file (read_run open_file m
              (_cpp_stack_include open_file cpp_create_reader fname).2)
            = read_run open_file m
              (_cpp_stack_include open_file cpp_create_reader fname).2)
    ∧ (∀ pfile : cpp_reader, ∃ n, ∀ m, n ≤ m →
        ((read_run open_file m pfile).fatal = true
          ∨ (read_run open_file m pfile).buffer = [])
        ∧ read_step open_file (read_run open_file m pfile) = read_run open_file m pfile)
    ∧ (∀ C : Nat → Prop,
        (∀ g, C g → ∃ (pre : List source_line) (h : Nat) (post : List source_line),
          C h ∧ open_file g = some (pre ++ source_line.include_file h :: post)) →
        ∀ fname, C fname →
          ∃ n, ∀ m, n ≤ m →
            (read_run open_file m
                (_cpp_stack_include open_file cpp_create_reader fname).2).fatal = true
            ∧ (read_run open_file m
                (_cpp_stack_include open_file cpp_create_reader fname).2).buffer.length
                  ≤ CPP_STACK_MAX
            ∧ read_step open_file (read_run open_file m
                (_cpp_stack_include open_file cpp_create_reader fname).2)
              = read_run open_file m
                (_cpp_stack_include open_file cpp_create_reader fname).2) := by
  have hmax : CPP_STACK_MAX = 200 := rfl
  refine ⟨rfl, reachable_depth open_file, ?_, ?_, ?_, ?_⟩
  · intro pfile fname h
    have h1 : CPP_STACK_MAX ≤ pfile.buffer.length := by omega
    simp [_cpp_stack_include, h1]
  · intro fname cs post hopen
    have hstart : (_cpp_stack_include open_file cpp_create_reader fname).2
        = ⟨[⟨cs.map source_line.text ++ source_line.include_file fname :: post, some fname⟩],
            0, false⟩ := by
      simp [_cpp_stack_include, _cpp_stack_file, cpp_create_reader, hopen, hmax]
    have hend : read_run open_file (199 * (cs.length + 1) + (cs.length + 1))
        (_cpp_stack_include open_file cpp_create_reader fname).2
        = ⟨⟨post, some fname⟩ :: List.replicate 199 ⟨post, some fname⟩, 1, true⟩ := by
      rw [hstart, read_run_add, read_run_levels open_file fname cs post hopen 199 (by omega),
        read_run_limit open_file fname cs post _ (by rw [List.length_replicate, hmax])]
    refine ⟨199 * (cs.length + 1) + (cs.length + 1), ?_⟩
    intro m hm
    obtain ⟨k, rfl⟩ := Nat.exists_eq_add_of_le hm
    rw [read_run_add, hend, read_run_fatal _ _ _ rfl]
    refine ⟨rfl, rfl, by rw [List.length_cons, List.length_replicate, hmax],
      by simp only [read_step, if_true]⟩
  · intro pfile
    obtain ⟨n, hn⟩ := read_run_terminates open_file pfile
    refine ⟨n, ?_⟩
    intro m hm
    obtain ⟨k, rfl⟩ := Nat.exists_eq_add_of_le hm
    rw [read_run_add, read_run_halted open_file k _ hn]
    exact ⟨hn, read_run_halted open_file 1 _ hn⟩
  · intro C hC fname hfname
    obtain ⟨pre, h, post, _, hopen⟩ := hC fname hfname
    have hstart : (_cpp_stack_include open_file cpp_create_reader fname).2
        = ⟨[⟨pre ++ source_line.include_file h :: post, some fname⟩], 0, false⟩ := by
      simp [_cpp_stack_include, _cpp_stack_file, cpp_create_reader, hopen, hmax]
    have hreach : reachable open_file
        (_cpp_stack_include open_file cpp_create_reader fname).2 :=
      reachable.stack_include _ fname reachable.create
    obtain ⟨n, hn⟩ := read_run_cycle open_file C hC _ [] rfl fname hfname _ hopen
      (some fname) 0
    rw [← hstart] at hn
    refine ⟨n, ?_⟩
    intro m hm
    obtain ⟨k, rfl⟩ := Nat.exists_eq_add_of_le hm
    rw [read_run_add, read_run_halted open_file k _ (Or.inl hn)]
    exact ⟨hn, reachable_depth open_file _ (read_run_reachable open_file n _ hreach),
      read_run_halted open_file 1 _ (Or.inl hn)⟩

/-! ## Argument counts -/

/-- Claim C6: the argument-count check accepts `argc = paramc`; for
`argc < paramc` it accepts exactly the variadic macros missing only their
trailing group, which is then bound empty; for `argc > paramc` it accepts
exactly the variadic macros, and the excess folds into the one trailing
parameter, so that an accepted call binds exactly `paramc` arguments. -/
theorem arguments_ok_cases (comma : cpp_token) (m : cpp_macro) (argc : Nat) :
    (argc = m.paramc → _cpp_arguments_ok m argc = true)
    ∧ (argc < m.paramc →
        (_cpp_arguments_ok m argc = true ↔ m.variadic ≠ 0 ∧ argc + 1 = m.paramc))
    ∧ (m.paramc < argc → (_cpp_arguments_ok m argc = true ↔ m.variadic ≠ 0))
    ∧ (m.variadic = 0 → (_cpp_arguments_ok m argc = true ↔ argc = m.paramc))
    ∧ (∀ args : List (List cpp_token), args.length = argc →
        ((fold_arguments comma m args).isSome = _cpp_arguments_ok m argc)
        ∧ (argc < m.paramc → _cpp_arguments_ok m argc = true →
            fold_arguments comma m args = some (args ++ [[]]))
        ∧ (m.paramc < argc → _cpp_arguments_ok m argc = true →
            fold_arguments comma m args = some (args.take (m.paramc - 1)
              ++ [List.intercalate [comma] (args.drop (m.paramc - 1))]))
        ∧ (1 ≤ m.paramc → ∀ bound, fold_arguments comma m args = some bound →
            bound.length = m.paramc)) := by
  refine ⟨?_, ?_, ?_, ?_, ?_⟩
  · intro h
    simp [_cpp_arguments_ok, h]
  · intro h
    have hne : argc ≠ m.paramc := by omega
    simp [_cpp_arguments_ok, hne, h]
  · intro h
    have hne : argc ≠ m.paramc := by omega
    have hnl : ¬ argc < m.paramc := by omega
    simp [_cpp_arguments_ok, hne, hnl]
  · intro hv
    by_cases he : argc = m.paramc
    · simp [_cpp_arguments_ok, he]
    · simp [_cpp_arguments_ok, he, hv]
  · intro args hlen
    subst hlen
    refine ⟨?_, ?_, ?_, ?_⟩
    · unfold fold_arguments
      cases hok : _cpp_arguments_ok m args.length
      · simp
      · simp only [if_true]
        split
        · rfl
        · split <;> rfl
    · intro h hok
      have hne : args.length ≠ m.paramc := by omega
      simp [fold_arguments, hok, hne, h]
    · intro h hok
      have hne : args.length ≠ m.paramc := by omega
      have hnl : ¬ args.length < m.paramc := by omega
      simp [fold_arguments, hok, hne, hnl]
    · intro hp bound hb
      unfold fold_arguments at hb
      cases hok : _cpp_arguments_ok m args.length
      · simp [hok] at hb
      · simp only [hok, if_true] at hb
        by_cases he : args.length = m.paramc
        · simp only [he, if_true, Option.some.injEq] at hb
          rw [← hb, he]
        · simp only [he, if_false] at hb
          by_cases hl : args.length < m.paramc
          · simp only [hl, if_true, Option.some.injEq] at hb
            have h2 : m.variadic ≠ 0 ∧ args.length + 1 = m.paramc := by
              simpa [_cpp_arguments_ok, he, hl] using hok
            rw [← hb]
            simp
            exact h2.2
          · simp only [hl, if_false, Option.some.injEq] at hb
            rw [← hb]
            simp
            omega

/-! ## Macro expansion -/

open cpp_token

theorem expandable_some {table : List (Nat × List cpp_token)} {p : Bool} {act : List Nat}
    {t : cpp_token} {n : Nat} {r : List cpp_token}
    (h : expandable table p act t = some (n, r)) :
    t = CPP_NAME n ∧ macro_lookup table n = some r ∧ p = false ∧ n ∉ act := by
  cases t with
  | CPP_OTHER c => simp [expandable] at h
  | CPP_NAME m =>
    simp only [expandable] at h
    cases hl : macro_lookup table m with
    | none => simp [hl] at h
    | some r2 =>
      simp [hl] at h
      obtain ⟨⟨hp, hm⟩, rfl, rfl⟩ := h
      exact ⟨rfl, hl, hp, hm⟩

theorem macro_lookup_mem_keys {table : List (Nat × List cpp_token)} {n : Nat}
    {r : List cpp_token} (h : macro_lookup table n = some r) :
    n ∈ table.map Prod.fst := by
  induction table with
  | nil => simp [macro_lookup] at h
  | cons e rest ih =>
    obtain ⟨k, v⟩ := e
    simp only [macro_lookup] at h
    by_cases hk : k = n
    · simp [hk]
    · simp only [hk, if_false] at h
      simp [ih h]

theorem chain_room {keys act : List Nat} {n : Nat} (hnd : act.Nodup)
    (hsub : ∀ x ∈ act, x ∈ keys) (hn : n ∈ keys) (hna : n ∉ act) :
    act.length < keys.length := by
  have hnd2 : (n :: act).Nodup := List.nodup_cons.mpr ⟨hna, hnd⟩
  have hsub2 : (n :: act) ⊆ keys := by
    intro x hx
    rcases List.mem_cons.mp hx with rfl | hx
    · exact hn
    · exact hsub x hx
  have := (List.subperm_of_subset hnd2 hsub2).length_le
  simpa using this

theorem rescan_nil (table : List (Nat × List cpp_token)) (p : Bool) (d : Nat)
    (act : List Nat) : rescan table p d act [] = [] := by
  cases d <;> simp [rescan]

theorem weight_nil (table : List (Nat × List cpp_token)) (p : Bool) (d : Nat)
    (act : List Nat) : weight table p d act [] = 0 := by
  cases d <;> simp [weight]

theorem rescan_append (table : List (Nat × List cpp_token)) (p : Bool) (d : Nat)
    (act : List Nat) (xs ys : List cpp_token) :
    rescan table p d act (xs ++ ys) = rescan table p d act xs ++ rescan table p d act ys := by
  cases d <;> simp [rescan]

theorem rescan_cons (table : List (Nat × List cpp_token)) (p : Bool) (d : Nat)
    (act : List Nat) (t : cpp_token) (ts : List cpp_token) :
    rescan table p d act (t :: ts) = rescan table p d act [t] ++ rescan table p d act ts :=
  rescan_append table p d act [t] ts

theorem rescan_single_none (table : List (Nat × List cpp_token)) (p : Bool) (d : Nat)
    (act : List Nat) (t : cpp_token) (h : expandable table p act t = none) :
    rescan table p d act [t] = [t] := by
  cases d <;> simp [rescan, h]

theorem rescan_single_some (table : List (Nat × List cpp_token)) (p : Bool) (d : Nat)
    (act : List Nat) (t : cpp_token) (n : Nat) (r : List cpp_token)
    (h : expandable table p act t = some (n, r)) :
    rescan table p (d + 1) act [t] = rescan table p d (n :: act) r := by
  simp [rescan, h]

theorem weight_cons (table : List (Nat × List cpp_token)) (p : Bool) (d : Nat)
    (act : List Nat) (t : cpp_token) (ts : List cpp_token) :
    weight table p d act (t :: ts) = weight table p d act [t] + weight table p d act ts := by
  cases d <;> simp [weight]
  omega

theorem weight_single_none (table : List (Nat × List cpp_token)) (p : Bool) (d : Nat)
    (act : List Nat) (t : cpp_token) (h : expandable table p act t = none) :
    weight table p d act [t] = 1 := by
  cases d <;> simp [weight, h]

theorem weight_single_some (table : List (Nat × List cpp_token)) (p : Bool) (d : Nat)
    (act : List Nat) (t : cpp_token) (n : Nat) (r : List cpp_token)
    (h : expandable table p act t = some (n, r)) :
    weight table p (d + 1) act [t] = 2 + weight table p d (n :: act) r := by
  simp [weight, h]

theorem pull_exhausted (table : List (Nat × List cpp_token)) (p : Bool) {s s1 : expander}
    (h : pull s = pull_result.exhausted s1) (hok : chain_ok table s.contexts) :
    denote table p s = denote table p s1
    ∧ measure table p s = measure table p s1 + 1
    ∧ chain_ok table s1.contexts := by
  obtain ⟨input, contexts⟩ := s
  cases contexts with
  | nil =>
    cases input <;> simp [pull] at h
  | cons c rest =>
    obtain ⟨toks, mn⟩ := c
    cases toks with
    | cons t ts => simp [pull] at h
    | nil =>
      simp only [pull, _cpp_pop_context, List.tail_cons, pull_result.exhausted.injEq] at h
      subst h
      refine ⟨?_, ?_, ?_⟩
      · simp [denote, denote_contexts, rescan_nil]
      · simp [measure, measure_contexts, weight_nil]
        omega
      · obtain ⟨hnd, hsub⟩ := hok
        cases mn with
        | none => exact ⟨by simpa [active_macros] using hnd, by simpa [active_macros] using hsub⟩
        | some m =>
          simp only [active_macros, List.filterMap_cons] at hnd hsub
          exact ⟨(List.nodup_cons.mp hnd).2, fun n hn => hsub n (List.mem_cons_of_mem _ hn)⟩

theorem pull_eof {table : List (Nat × List cpp_token)} {p : Bool} {s : expander}
    (h : pull s = pull_result.eof) : denote table p s = [] := by
  obtain ⟨input, contexts⟩ := s
  cases contexts with
  | nil =>
    cases input with
    | nil => simp [denote, denote_contexts, rescan_nil]
    | cons t ts => simp [pull] at h
  | cons c rest =>
    obtain ⟨toks, mn⟩ := c
    cases toks <;> simp [pull, _cpp_pop_context] at h

theorem pull_token (table : List (Nat × List cpp_token)) (p : Bool) {s s1 : expander}
    {t : cpp_token} (h : pull s = pull_result.token t s1) :
    active_macros s1.contexts = active_macros s.contexts
    ∧ denote table p s =
        rescan table p (table.length - (active_macros s.contexts).length)
          (active_macros s.contexts) [t] ++ denote table p s1
    ∧ measure table p s =
        weight table p (table.length - (active_macros s.contexts).length)
          (active_macros s.contexts) [t] + measure table p s1 := by
  obtain ⟨input, contexts⟩ := s
  cases contexts with
  | nil =>
    cases input with
    | nil => simp [pull] at h
    | cons u us =>
      simp only [pull, pull_result.token.injEq] at h
      obtain ⟨rfl, rfl⟩ := h
      refine ⟨rfl, ?_, ?_⟩
      · simp only [denote, denote_contexts, active_macros, List.filterMap_nil,
          List.length_nil, Nat.sub_zero, List.nil_append]
        exact rescan_cons _ _ _ _ _ _
      · simp only [measure, measure_contexts, active_macros, List.filterMap_nil,
          List.length_nil, Nat.sub_zero, Nat.zero_add]
        exact weight_cons _ _ _ _ _ _
  | cons c rest =>
    obtain ⟨toks, mn⟩ := c
    cases toks with
    | nil => simp [pull, _cpp_pop_context] at h
    | cons u us =>
      simp only [pull, pull_result.token.injEq] at h
      obtain ⟨rfl, rfl⟩ := h
      have hact : active_macros ((⟨us, mn⟩ : cpp_context) :: rest)
          = active_macros ((⟨u :: us, mn⟩ : cpp_context) :: rest) := by
        cases mn <;> simp [active_macros]
      refine ⟨hact, ?_, ?_⟩
      · simp only [denote, denote_contexts, hact]
        rw [rescan_cons]
        simp [List.append_assoc]
      · simp only [measure, measure_contexts, hact]
        rw [weight_cons]
        omega

theorem push_spec (table : List (Nat × List cpp_token)) (p : Bool) (s1 : expander)
    (n : Nat) (r : List cpp_token) :
    active_macros (push_macro_context s1 n r).contexts = n :: active_macros s1.contexts
    ∧ denote table p (push_macro_context s1 n r) =
        rescan table p (table.length - ((active_macros s1.contexts).length + 1))
          (n :: active_macros s1.contexts) r ++ denote table p s1
    ∧ measure table p (push_macro_context s1 n r) =
        1 + weight table p (table.length - ((active_macros s1.contexts).length + 1))
          (n :: active_macros s1.contexts) r + measure table p s1 := by
  have hact : active_macros ((⟨r, some n⟩ : cpp_context) :: s1.contexts)
      = n :: active_macros s1.contexts := by simp [active_macros]
  refine ⟨hact, ?_, ?_⟩
  · simp only [denote, push_macro_context, denote_contexts, hact, List.length_cons,
      List.append_assoc]
  · simp only [measure, push_macro_context, measure_contexts, hact, List.length_cons]
    omega

theorem cpp_get_token_spec (table : List (Nat × List cpp_token)) (p : Bool) :
    ∀ (fuel : Nat) (s : expander), chain_ok table s.contexts → measure table p s < fuel →
      ∃ res, cpp_get_token table p fuel s = some res ∧
        ((res.1 = none ∧ denote table p s = [])
          ∨ (∃ t, res.1 = some t ∧ denote table p s = t :: denote table p res.2
              ∧ measure table p res.2 < measure table p s
              ∧ chain_ok table res.2.contexts)) := by
  intro fuel
  induction fuel with
  | zero => intro s _ h; omega
  | succ fuel ih =>
    intro s hok hfuel
    cases hpull : pull s with
    | exhausted s1 =>
      obtain ⟨hd, hm, hok1⟩ := pull_exhausted table p hpull hok
      obtain ⟨res, hres, hcase⟩ := ih s1 hok1 (by omega)
      refine ⟨res, by simp only [cpp_get_token, hpull]; exact hres, ?_⟩
      rcases hcase with ⟨h1, h2⟩ | ⟨t, h1, h2, h3, h4⟩
      · exact Or.inl ⟨h1, by rw [hd]; exact h2⟩
      · exact Or.inr ⟨t, h1, by rw [hd]; exact h2, by omega, h4⟩
    | eof =>
      exact ⟨(none, s), by simp only [cpp_get_token, hpull], Or.inl ⟨rfl, pull_eof hpull⟩⟩
    | token t s1 =>
      obtain ⟨hact, hd, hm⟩ := pull_token table p hpull
      have hok1 : chain_ok table s1.contexts := by
        unfold chain_ok; rw [hact]; exact hok
      cases hexp : expandable table p (active_macros s1.contexts) t with
      | none =>
        refine ⟨(some t, s1), by simp only [cpp_get_token, hpull, hexp], Or.inr ⟨t, rfl, ?_, ?_, hok1⟩⟩
        · rw [hd, ← hact, rescan_single_none _ _ _ _ _ hexp]; rfl
        · rw [hm, ← hact, weight_single_none _ _ _ _ _ hexp]; simp
      | some nr =>
        obtain ⟨n, r⟩ := nr
        obtain ⟨_, hlook, _, hna⟩ := expandable_some hexp
        have hkey := macro_lookup_mem_keys hlook
        have hroom : (active_macros s1.contexts).length < table.length := by
          have := chain_room hok1.1 hok1.2 hkey hna
          simpa using this
        obtain ⟨d, hdeq⟩ : ∃ d, table.length - (active_macros s1.contexts).length = d + 1 :=
          ⟨table.length - (active_macros s1.contexts).length - 1, by omega⟩
        have hd2 : table.length - ((active_macros s1.contexts).length + 1) = d := by omega
        obtain ⟨hact2, hdp, hmp⟩ := push_spec table p s1 n r
        rw [hd2] at hdp hmp
        rw [← hact, hdeq, rescan_single_some _ _ _ _ _ _ _ hexp] at hd
        rw [← hact, hdeq, weight_single_some _ _ _ _ _ _ _ hexp] at hm
        have hok2 : chain_ok table (push_macro_context s1 n r).contexts := by
          unfold chain_ok
          rw [hact2]
          refine ⟨List.nodup_cons.mpr ⟨hna, hok1.1⟩, ?_⟩
          intro x hx
          rcases List.mem_cons.mp hx with rfl | hx
          · exact hkey
          · exact hok1.2 x hx
        obtain ⟨res, hres, hcase⟩ := ih (push_macro_context s1 n r) hok2 (by omega)
        refine ⟨res, by simp only [cpp_get_token, hpull, hexp]; exact hres, ?_⟩
        rcases hcase with ⟨h1, h2⟩ | ⟨u, h1, h2, h3, h4⟩
        · exact Or.inl ⟨h1, by rw [hd, ← hdp]; exact h2⟩
        · exact Or.inr ⟨u, h1, by rw [hd, ← hdp]; exact h2, by omega, h4⟩

theorem expand_all_spec (table : List (Nat × List cpp_token)) (p : Bool) :
    ∀ (fuel : Nat) (s : expander), chain_ok table s.contexts →
      measure table p s + 1 < fuel →
      expand_all table p fuel s = some (denote table p s) := by
  intro fuel
  induction fuel with
  | zero => intro s _ h; omega
  | succ fuel ih =>
    intro s hok hfuel
    obtain ⟨res, hres, hcase⟩ := cpp_get_token_spec table p fuel s hok (by omega)
    obtain ⟨ot, s1⟩ := res
    rcases hcase with ⟨h1, h2⟩ | ⟨t, h1, h2, h3, h4⟩
    · simp only at h1
      subst h1
      simp only [expand_all, hres, h2]
    · simp only at h1 h2 h3 h4
      subst h1
      simp only [expand_all, hres, h2]
      rw [ih s1 h4 (by omega)]
      rfl

theorem chain_ok_nil (table : List (Nat × List cpp_token)) : chain_ok table [] := by
  simp [chain_ok, active_macros]

/-- Claim C7: token production over object-like macros terminates on every
input, with the rescan of the input as its output; a use of a macro `A` whose
replacement mentions `A` expands to the rescanned replacement in which the
inner `A` stands as a literal identifier token; for `#define A A` a use of `A`
yields exactly the one token `A`; and whenever the pulled token names a macro
that is active along the context chain it is returned unchanged and no context
is pushed. -/
theorem self_reference_terminates (table : List (Nat × List cpp_token)) (A : Nat)
    (pre post : List cpp_token)
    (hdef : macro_lookup table A = some (pre ++ CPP_NAME A :: post)) :
    (∀ (p : Bool) (input : List cpp_token) (fuel : Nat),
        measure table p ⟨input, []⟩ + 1 < fuel →
        expand_all table p fuel ⟨input, []⟩ = some (rescan table p table.length [] input))
    ∧ (∀ fuel, measure table false ⟨[CPP_NAME A], []⟩ + 1 < fuel →
        expand_all table false fuel ⟨[CPP_NAME A], []⟩
          = some (rescan table false (table.length - 1) [A] pre
              ++ CPP_NAME A :: rescan table false (table.length - 1) [A] post))
    ∧ (pre = [] → post = [] → ∀ fuel, 5 ≤ fuel →
        expand_all table false fuel ⟨[CPP_NAME A], []⟩ = some [CPP_NAME A])
    ∧ (∀ (p : Bool) (fuel : Nat) (s s1 : expander),
        pull s = pull_result.token (CPP_NAME A) s1 → A ∈ active_macros s1.contexts →
        cpp_get_token table p (fuel + 1) s = some (some (CPP_NAME A), s1)
        ∧ s1.contexts.length = s.contexts.length) := by
  have hgen : ∀ (p : Bool) (input : List cpp_token) (fuel : Nat),
      measure table p ⟨input, []⟩ + 1 < fuel →
      expand_all table p fuel ⟨input, []⟩ = some (rescan table p table.length [] input) := by
    intro p input fuel hfuel
    rw [expand_all_spec table p fuel ⟨input, []⟩ (chain_ok_nil table) hfuel]
    simp [denote, denote_contexts]
  have hlen : table.length = (table.length - 1) + 1 := by
    have := macro_lookup_mem_keys hdef
    cases table with
    | nil => simp at this
    | cons e rest => simp
  have hexp : expandable table false [] (CPP_NAME A) = some (A, pre ++ CPP_NAME A :: post) := by
    simp [expandable, hdef]
  have hself : expandable table false [A] (CPP_NAME A) = none := by
    simp [expandable, hdef]
  have hres : rescan table false table.length [] [CPP_NAME A]
      = rescan table false (table.length - 1) [A] pre
          ++ CPP_NAME A :: rescan table false (table.length - 1) [A] post := by
    rw [hlen, rescan_single_some _ _ _ _ _ _ _ hexp, rescan_append, rescan_cons,
      rescan_single_none _ _ _ _ _ hself]
    simp
  have hmeas : measure table false ⟨[CPP_NAME A], []⟩
      = 2 + weight table false (table.length - 1) [A] (pre ++ CPP_NAME A :: post) := by
    simp only [measure, measure_contexts, Nat.zero_add]
    rw [hlen, weight_single_some _ _ _ _ _ _ _ hexp]
    simp
  refine ⟨hgen, ?_, ?_, ?_⟩
  · intro fuel hfuel
    rw [hgen false _ fuel hfuel, hres]
  · intro hpre hpost fuel hfuel
    subst hpre hpost
    have hm : measure table false ⟨[CPP_NAME A], []⟩ = 3 := by
      rw [hmeas]
      simp only [List.nil_append]
      rw [weight_single_none _ _ _ _ _ hself]
    rw [hgen false _ fuel (by omega), hres]
    simp [rescan_nil]
  · intro p fuel s s1 hpull hact
    have hnone : expandable table p (active_macros s1.contexts) (CPP_NAME A) = none := by
      simp [expandable, hdef, hact]
    refine ⟨by simp only [cpp_get_token, hpull, hnone], ?_⟩
    obtain ⟨input, contexts⟩ := s
    cases contexts with
    | nil =>
      cases input with
      | nil => simp [pull] at hpull
      | cons u us =>
        simp only [pull, pull_result.token.injEq] at hpull
        rw [← hpull.2]
    | cons c rest =>
      obtain ⟨toks, mn⟩ := c
      cases toks with
      | nil => simp [pull, _cpp_pop_context] at hpull
      | cons u us =>
        simp only [pull, pull_result.token.injEq] at hpull
        rw [← hpull.2]
        simp

/-- Witness for claim C7: `#define A A` with `A` the name 0. -/
theorem self_reference_terminates_witness :
    (∀ (p : Bool) (input : List cpp_token) (fuel : Nat),
        measure [(0, [CPP_NAME 0])] p ⟨input, []⟩ + 1 < fuel →
        expand_all [(0, [CPP_NAME 0])] p fuel ⟨input, []⟩
          = some (rescan [(0, [CPP_NAME 0])] p [(0, [CPP_NAME 0])].length [] input))
    ∧ (∀ fuel, measure [(0, [CPP_NAME 0])] false ⟨[CPP_NAME 0], []⟩ + 1 < fuel →
        expand_all [(0, [CPP_NAME 0])] false fuel ⟨[CPP_NAME 0], []⟩
          = some (rescan [(0, [CPP_NAME 0])] false ([(0, [CPP_NAME 0])].length - 1) [0] []
              ++ CPP_NAME 0 ::
                rescan [(0, [CPP_NAME 0])] false ([(0, [CPP_NAME 0])].length - 1) [0] []))
    ∧ (([] : List cpp_token) = [] → ([] : List cpp_token) = [] → ∀ fuel, 5 ≤ fuel →
        expand_all [(0, [CPP_NAME 0])] false fuel ⟨[CPP_NAME 0], []⟩ = some [CPP_NAME 0])
    ∧ (∀ (p : Bool) (fuel : Nat) (s s1 : expander),
        pull s = pull_result.token (CPP_NAME 0) s1 → 0 ∈ active_macros s1.contexts →
        cpp_get_token [(0, [CPP_NAME 0])] p (fuel + 1) s = some (some (CPP_NAME 0), s1)
        ∧ s1.contexts.length = s.contexts.length) :=
  self_reference_terminates [(0, [CPP_NAME 0])] 0 [] [] (by decide)

end CppHash
